import Mathlib

/-!
Verification of the orchestration logic of the generative-image script
(src/tf_hub_generative_image_module.py).

The script has two pipelines built on tensors of real numbers:

* hypersphere interpolation between two latent vectors
  (interpolate_hypersphere, lines 60-71, used by interpolate_between_vectors,
  lines 110-130);
* a latent-inversion loop that minimizes a pixel plus norm-regularizer loss
  (find_closest_latent_vector, lines 162-197).

Latent vectors (tf tensors of shape [latent_dim] with tf.norm, the Euclidean
norm) are embedded as EuclideanSpace ℝ (Fin d).  Images (tensors of shape
height x width x channels) are embedded as nested lists of reals, which keeps
shape compatibility an explicit, checkable condition as in the framework.
Division follows the total real-number convention; the one division-by-zero
site (num_steps = 1) is analyzed separately.

External collaborators (the pretrained module, the Adam optimizer, the seeded
random generator) are parameters of the embedded pipelines: the module is a
function from vectors to images, the optimizer a family of update functions
indexed by its learning rate, and the generator a function from the integer
seed to a vector (tf.random_normal with a fixed op-level seed in a fresh graph
is documented to be deterministic, so a function of the seed is its faithful
denotation).
-/

/-- Line 54 of the source: `latent_dim = 512`. -/
def latent_dim : ℕ := 512

/-- Embedding of a latent vector: a tf tensor of shape `[d]` with the
Euclidean norm `tf.norm`. -/
abbrev LatentVec := EuclideanSpace ℝ (Fin latent_dim)

/-- Embedding of `interpolate_hypersphere(v1, v2, num_steps)` (lines 60-71).
The Python loop `for step in range(num_steps)` appending one vector per step
is embedded as a map over `List.range num_steps`; `step / (num_steps - 1)`
is real division (for `num_steps = 1` the tensor division by zero does not
raise, so the function stays total, matching the framework semantics). -/
noncomputable def interpolate_hypersphere {d : ℕ} (v1 v2 : EuclideanSpace ℝ (Fin d))
    (num_steps : ℕ) : List (EuclideanSpace ℝ (Fin d)) :=
  let v1_norm := ‖v1‖
  let v2_norm := ‖v2‖
  let v2_normalized := (v1_norm / v2_norm) • v2
  (List.range num_steps).map fun (step : ℕ) =>
    let interpolated := v1 + ((step : ℝ) / ((num_steps : ℝ) - 1)) • (v2_normalized - v1)
    let interpolated_norm := ‖interpolated‖
    (v1_norm / interpolated_norm) • interpolated

/-- The vector appended at a given step of the interpolation loop. -/
noncomputable def interpolationStep {d : ℕ} (v1 v2 : EuclideanSpace ℝ (Fin d))
    (num_steps step : ℕ) : EuclideanSpace ℝ (Fin d) :=
  (‖v1‖ / ‖v1 + ((step : ℝ) / ((num_steps : ℝ) - 1)) • ((‖v1‖ / ‖v2‖) • v2 - v1)‖) •
    (v1 + ((step : ℝ) / ((num_steps : ℝ) - 1)) • ((‖v1‖ / ‖v2‖) • v2 - v1))

theorem interpolate_hypersphere_eq_map {d : ℕ} (v1 v2 : EuclideanSpace ℝ (Fin d))
    (num_steps : ℕ) :
    interpolate_hypersphere v1 v2 num_steps =
      (List.range num_steps).map (interpolationStep v1 v2 num_steps) := by
  unfold interpolate_hypersphere interpolationStep
  rfl

theorem interpolate_hypersphere_length {d : ℕ} (v1 v2 : EuclideanSpace ℝ (Fin d))
    (n : ℕ) : (interpolate_hypersphere v1 v2 n).length = n := by
  rw [interpolate_hypersphere_eq_map]
  simp

theorem interpolate_hypersphere_getElem? {d : ℕ} (v1 v2 : EuclideanSpace ℝ (Fin d))
    {n k : ℕ} (hk : k < n) :
    (interpolate_hypersphere v1 v2 n)[k]? = some (interpolationStep v1 v2 n k) := by
  rw [interpolate_hypersphere_eq_map]
  simp [List.getElem?_map, List.getElem?_range, hk]

theorem interpolate_hypersphere_head? {d : ℕ} (v1 v2 : EuclideanSpace ℝ (Fin d))
    {n : ℕ} (hn : 0 < n) :
    (interpolate_hypersphere v1 v2 n).head? = some (interpolationStep v1 v2 n 0) := by
  rw [interpolate_hypersphere_eq_map]
  cases n with
  | zero => omega
  | succ m => simp [List.range_succ_eq_map]

theorem interpolate_hypersphere_getLast? {d : ℕ} (v1 v2 : EuclideanSpace ℝ (Fin d))
    {n : ℕ} (hn : 0 < n) :
    (interpolate_hypersphere v1 v2 n).getLast? =
      some (interpolationStep v1 v2 n (n - 1)) := by
  rw [interpolate_hypersphere_eq_map]
  cases n with
  | zero => omega
  | succ m => simp [List.range_succ, List.getLast?_concat]

theorem mem_interpolate_hypersphere {d : ℕ} {v1 v2 : EuclideanSpace ℝ (Fin d)}
    {n : ℕ} {v : EuclideanSpace ℝ (Fin d)} (hv : v ∈ interpolate_hypersphere v1 v2 n) :
    ∃ k, k < n ∧ v = interpolationStep v1 v2 n k := by
  rw [interpolate_hypersphere_eq_map] at hv
  rcases List.mem_map.1 hv with ⟨k, hk, rfl⟩
  exact ⟨k, List.mem_range.1 hk, rfl⟩

theorem interpolationStep_zero {d : ℕ} (v1 v2 : EuclideanSpace ℝ (Fin d))
    (n : ℕ) (h1 : v1 ≠ 0) : interpolationStep v1 v2 n 0 = v1 := by
  unfold interpolationStep
  simp [div_self (norm_ne_zero_iff.2 h1)]

theorem interpolationStep_last {d : ℕ} (v1 v2 : EuclideanSpace ℝ (Fin d))
    {n : ℕ} (h1 : v1 ≠ 0) (h2 : v2 ≠ 0) (hn : 2 ≤ n) :
    interpolationStep v1 v2 n (n - 1) = (‖v1‖ / ‖v2‖) • v2 := by
  unfold interpolationStep
  have hcast : ((n - 1 : ℕ) : ℝ) = (n : ℝ) - 1 := by
    have : 1 ≤ n := by omega
    push_cast [this]
    ring
  have hne : (n : ℝ) - 1 ≠ 0 := by
    have : (2 : ℝ) ≤ (n : ℝ) := by exact_mod_cast hn
    linarith
  rw [hcast, div_self hne, one_smul, add_sub_cancel]
  have hnorm : ‖(‖v1‖ / ‖v2‖) • v2‖ = ‖v1‖ := by
    rw [norm_smul, Real.norm_eq_abs, abs_of_nonneg (by positivity),
      div_mul_cancel₀ _ (norm_ne_zero_iff.2 h2)]
  rw [hnorm, div_self (norm_ne_zero_iff.2 h1), one_smul]

theorem interpolated_ne_zero {d : ℕ} {v1 v2 : EuclideanSpace ℝ (Fin d)}
    (h1 : v1 ≠ 0) (h2 : v2 ≠ 0) (h3 : ∀ c : ℝ, c ≤ 0 → v2 ≠ c • v1)
    {t : ℝ} (ht0 : 0 ≤ t) (ht1 : t ≤ 1) :
    v1 + t • ((‖v1‖ / ‖v2‖) • v2 - v1) ≠ 0 := by
  intro h
  have hsum : (1 - t) • v1 + (t * (‖v1‖ / ‖v2‖)) • v2 = 0 := by
    rw [← h]
    module
  rcases ht0.eq_or_lt with hz | hpos
  · rw [← hz] at hsum
    simp at hsum
    exact h1 hsum
  · have hv1 : (0:ℝ) < ‖v1‖ := norm_pos_iff.2 h1
    have hv2 : (0:ℝ) < ‖v2‖ := norm_pos_iff.2 h2
    have ha : (0:ℝ) < t * (‖v1‖ / ‖v2‖) := by positivity
    have heq : (t * (‖v1‖ / ‖v2‖)) • v2 = (t - 1) • v1 := by
      have h9 : (t * (‖v1‖ / ‖v2‖)) • v2 = -((1 - t) • v1) :=
        eq_neg_of_add_eq_zero_right hsum
      rw [h9, ← neg_smul]
      congr 1
      ring
    have hv2eq : v2 = ((t * (‖v1‖ / ‖v2‖))⁻¹ * (t - 1)) • v1 := by
      have h10 := congrArg (fun x => (t * (‖v1‖ / ‖v2‖))⁻¹ • x) heq
      simp only [smul_smul, inv_mul_cancel₀ (ne_of_gt ha), one_smul] at h10
      exact h10
    have hinv : (0:ℝ) ≤ (t * (‖v1‖ / ‖v2‖))⁻¹ := by positivity
    have hc : (t * (‖v1‖ / ‖v2‖))⁻¹ * (t - 1) ≤ 0 :=
      mul_nonpos_of_nonneg_of_nonpos hinv (by linarith)
    exact h3 _ hc hv2eq

theorem interpolationStep_norm {d : ℕ} {v1 v2 : EuclideanSpace ℝ (Fin d)}
    (h1 : v1 ≠ 0) (h2 : v2 ≠ 0) (h3 : ∀ c : ℝ, c ≤ 0 → v2 ≠ c • v1)
    {n k : ℕ} (hn : 2 ≤ n) (hk : k < n) :
    ‖interpolationStep v1 v2 n k‖ = ‖v1‖ := by
  unfold interpolationStep
  have hn1 : (0:ℝ) < (n : ℝ) - 1 := by
    have : (2 : ℝ) ≤ (n : ℝ) := by exact_mod_cast hn
    linarith
  have ht0 : 0 ≤ (k : ℝ) / ((n : ℝ) - 1) := div_nonneg (by positivity) hn1.le
  have ht1 : (k : ℝ) / ((n : ℝ) - 1) ≤ 1 := by
    rw [div_le_one hn1]
    have : (k : ℝ) + 1 ≤ (n : ℝ) := by exact_mod_cast hk
    linarith
  have hw := interpolated_ne_zero h1 h2 h3 ht0 ht1
  rw [norm_smul, Real.norm_eq_abs, abs_of_nonneg (by positivity),
    div_mul_cancel₀ _ (norm_ne_zero_iff.2 hw)]

theorem euclidean_single_ne_zero {d : ℕ} (i : Fin d) {a : ℝ} (ha : a ≠ 0) :
    EuclideanSpace.single i a ≠ 0 := by
  intro h
  have h2 : ‖EuclideanSpace.single i a‖ = 0 := by rw [h, norm_zero]
  rw [EuclideanSpace.norm_single] at h2
  exact ha (by simpa using h2)

/-- C1 (amended): for n greater or equal 2 and non-zero vectors v1, v2 such that
v2 is not a nonpositive multiple of v1, the path has exactly n vectors, starts
at v1, ends at v2 rescaled to the norm of v1, and every vector on it has the
norm of v1. -/
theorem C1_path_properties {d : ℕ} (v1 v2 : EuclideanSpace ℝ (Fin d)) (n : ℕ)
    (h1 : v1 ≠ 0) (h2 : v2 ≠ 0) (h3 : ∀ c : ℝ, c ≤ 0 → v2 ≠ c • v1) (hn : 2 ≤ n) :
    (interpolate_hypersphere v1 v2 n).length = n ∧
    (interpolate_hypersphere v1 v2 n).head? = some v1 ∧
    (interpolate_hypersphere v1 v2 n).getLast? = some ((‖v1‖ / ‖v2‖) • v2) ∧
    ∀ v ∈ interpolate_hypersphere v1 v2 n, ‖v‖ = ‖v1‖ := by
  refine ⟨interpolate_hypersphere_length v1 v2 n, ?_, ?_, ?_⟩
  · rw [interpolate_hypersphere_head? v1 v2 (by omega),
      interpolationStep_zero v1 v2 n h1]
  · rw [interpolate_hypersphere_getLast? v1 v2 (by omega),
      interpolationStep_last v1 v2 h1 h2 hn]
  · intro v hv
    rcases mem_interpolate_hypersphere hv with ⟨k, hk, rfl⟩
    exact interpolationStep_norm h1 h2 h3 hn hk

/-- C1 witness: the amended theorem applied to v1 = (1,0), v2 = (0,1), n = 2. -/
theorem C1_path_properties_witness :
    (interpolate_hypersphere (EuclideanSpace.single (0 : Fin 2) (1:ℝ))
        (EuclideanSpace.single (1 : Fin 2) (1:ℝ)) 2).length = 2 ∧
    (interpolate_hypersphere (EuclideanSpace.single (0 : Fin 2) (1:ℝ))
        (EuclideanSpace.single (1 : Fin 2) (1:ℝ)) 2).head? =
      some (EuclideanSpace.single (0 : Fin 2) (1:ℝ)) ∧
    (interpolate_hypersphere (EuclideanSpace.single (0 : Fin 2) (1:ℝ))
        (EuclideanSpace.single (1 : Fin 2) (1:ℝ)) 2).getLast? =
      some ((‖EuclideanSpace.single (0 : Fin 2) (1:ℝ)‖ /
          ‖EuclideanSpace.single (1 : Fin 2) (1:ℝ)‖) •
        EuclideanSpace.single (1 : Fin 2) (1:ℝ)) ∧
    ∀ v ∈ interpolate_hypersphere (EuclideanSpace.single (0 : Fin 2) (1:ℝ))
        (EuclideanSpace.single (1 : Fin 2) (1:ℝ)) 2,
      ‖v‖ = ‖EuclideanSpace.single (0 : Fin 2) (1:ℝ)‖ :=
  C1_path_properties _ _ 2
    (euclidean_single_ne_zero 0 one_ne_zero)
    (euclidean_single_ne_zero 1 one_ne_zero)
    (by
      intro c hc h
      have h4 := congrArg (fun x : EuclideanSpace ℝ (Fin 2) => x 1) h
      simp [EuclideanSpace.single_apply, PiLp.smul_apply] at h4)
    (by norm_num)

theorem antipodal_middle_step_eq_zero :
    interpolationStep (EuclideanSpace.single (0 : Fin 1) (1:ℝ))
      (-(EuclideanSpace.single (0 : Fin 1) (1:ℝ))) 3 1 = 0 := by
  unfold interpolationStep
  have hz : EuclideanSpace.single (0 : Fin 1) (1:ℝ) +
      ((1 : ℝ) / ((3 : ℝ) - 1)) •
        ((‖EuclideanSpace.single (0 : Fin 1) (1:ℝ)‖ /
            ‖-(EuclideanSpace.single (0 : Fin 1) (1:ℝ))‖) •
          (-(EuclideanSpace.single (0 : Fin 1) (1:ℝ))) -
          EuclideanSpace.single (0 : Fin 1) (1:ℝ)) = 0 := by
    rw [norm_neg, EuclideanSpace.norm_single, norm_one, div_self one_ne_zero, one_smul]
    module
  rw [show ((1 : ℕ) : ℝ) = (1 : ℝ) by norm_num,
    show ((3 : ℕ) : ℝ) = (3 : ℝ) by norm_num, hz, smul_zero]

/-- C1 counterexample: the claim quantifies over all pairs of non-zero vectors,
but for the antipodal pair v1 = (1), v2 = (-1) and n = 3 the middle vector of
the path is the zero vector, whose norm is 0 and not the norm of v1. -/
theorem C1_counterexample :
    (2:ℕ) ≤ 3 ∧
    EuclideanSpace.single (0 : Fin 1) (1:ℝ) ≠ 0 ∧
    (-(EuclideanSpace.single (0 : Fin 1) (1:ℝ))) ≠ 0 ∧
    ¬ (∀ v ∈ interpolate_hypersphere (EuclideanSpace.single (0 : Fin 1) (1:ℝ))
          (-(EuclideanSpace.single (0 : Fin 1) (1:ℝ))) 3,
        ‖v‖ = ‖EuclideanSpace.single (0 : Fin 1) (1:ℝ)‖) := by
  refine ⟨by norm_num, euclidean_single_ne_zero 0 one_ne_zero, ?_, ?_⟩
  · simpa using euclidean_single_ne_zero (0 : Fin 1) (one_ne_zero (α := ℝ))
  · intro hall
    have hmem : interpolationStep (EuclideanSpace.single (0 : Fin 1) (1:ℝ))
        (-(EuclideanSpace.single (0 : Fin 1) (1:ℝ))) 3 1 ∈
        interpolate_hypersphere (EuclideanSpace.single (0 : Fin 1) (1:ℝ))
          (-(EuclideanSpace.single (0 : Fin 1) (1:ℝ))) 3 := by
      rw [interpolate_hypersphere_eq_map]
      exact List.mem_map_of_mem _ (by simp)
    have hval := hall _ hmem
    rw [antipodal_middle_step_eq_zero, norm_zero, EuclideanSpace.norm_single,
      norm_one] at hval
    exact zero_ne_one hval

/-- C3: the k-th vector of the path is the straight-line interpolation
between v1 and the rescaled v2 at parameter k/(n-1), rescaled by the factor
norm v1 / norm interpolated; under the contract hypotheses its norm is the
norm of v1.  No other (great-circle) formula is involved. -/
theorem C3_step_formula {d : ℕ} (v1 v2 : EuclideanSpace ℝ (Fin d)) (n k : ℕ)
    (hk : k < n) :
    (interpolate_hypersphere v1 v2 n)[k]? =
      some ((‖v1‖ / ‖v1 + ((k : ℝ) / ((n : ℝ) - 1)) • ((‖v1‖ / ‖v2‖) • v2 - v1)‖) •
        (v1 + ((k : ℝ) / ((n : ℝ) - 1)) • ((‖v1‖ / ‖v2‖) • v2 - v1))) ∧
    (v1 ≠ 0 → v2 ≠ 0 → (∀ c : ℝ, c ≤ 0 → v2 ≠ c • v1) → 2 ≤ n →
      ‖(‖v1‖ / ‖v1 + ((k : ℝ) / ((n : ℝ) - 1)) • ((‖v1‖ / ‖v2‖) • v2 - v1)‖) •
        (v1 + ((k : ℝ) / ((n : ℝ) - 1)) • ((‖v1‖ / ‖v2‖) • v2 - v1))‖ = ‖v1‖) :=
  ⟨interpolate_hypersphere_getElem? v1 v2 hk,
   fun h1 h2 h3 hn => interpolationStep_norm h1 h2 h3 hn hk⟩

/-- C3 witness: the formula at v1 = (1,0), v2 = (0,1), n = 2, k = 1. -/
theorem C3_step_formula_witness :
    (interpolate_hypersphere (EuclideanSpace.single (0 : Fin 2) (1:ℝ))
        (EuclideanSpace.single (1 : Fin 2) (1:ℝ)) 2)[1]? =
      some ((‖EuclideanSpace.single (0 : Fin 2) (1:ℝ)‖ /
          ‖EuclideanSpace.single (0 : Fin 2) (1:ℝ) +
            ((1 : ℝ) / ((2 : ℝ) - 1)) •
              ((‖EuclideanSpace.single (0 : Fin 2) (1:ℝ)‖ /
                  ‖EuclideanSpace.single (1 : Fin 2) (1:ℝ)‖) •
                EuclideanSpace.single (1 : Fin 2) (1:ℝ) -
                EuclideanSpace.single (0 : Fin 2) (1:ℝ))‖) •
        (EuclideanSpace.single (0 : Fin 2) (1:ℝ) +
          ((1 : ℝ) / ((2 : ℝ) - 1)) •
            ((‖EuclideanSpace.single (0 : Fin 2) (1:ℝ)‖ /
                ‖EuclideanSpace.single (1 : Fin 2) (1:ℝ)‖) •
              EuclideanSpace.single (1 : Fin 2) (1:ℝ) -
              EuclideanSpace.single (0 : Fin 2) (1:ℝ)))) ∧
    ‖(‖EuclideanSpace.single (0 : Fin 2) (1:ℝ)‖ /
        ‖EuclideanSpace.single (0 : Fin 2) (1:ℝ) +
          ((1 : ℝ) / ((2 : ℝ) - 1)) •
            ((‖EuclideanSpace.single (0 : Fin 2) (1:ℝ)‖ /
                ‖EuclideanSpace.single (1 : Fin 2) (1:ℝ)‖) •
              EuclideanSpace.single (1 : Fin 2) (1:ℝ) -
              EuclideanSpace.single (0 : Fin 2) (1:ℝ))‖) •
      (EuclideanSpace.single (0 : Fin 2) (1:ℝ) +
        ((1 : ℝ) / ((2 : ℝ) - 1)) •
          ((‖EuclideanSpace.single (0 : Fin 2) (1:ℝ)‖ /
              ‖EuclideanSpace.single (1 : Fin 2) (1:ℝ)‖) •
            EuclideanSpace.single (1 : Fin 2) (1:ℝ) -
            EuclideanSpace.single (0 : Fin 2) (1:ℝ)))‖ =
      ‖EuclideanSpace.single (0 : Fin 2) (1:ℝ)‖ := by
  have hcast1 : ((1 : ℕ) : ℝ) = (1 : ℝ) := by norm_num
  have hcast2 : ((2 : ℕ) : ℝ) = (2 : ℝ) := by norm_num
  have h := C3_step_formula (EuclideanSpace.single (0 : Fin 2) (1:ℝ))
    (EuclideanSpace.single (1 : Fin 2) (1:ℝ)) 2 1 (by norm_num)
  rw [hcast1, hcast2] at h
  exact ⟨h.1, h.2
    (euclidean_single_ne_zero 0 one_ne_zero)
    (euclidean_single_ne_zero 1 one_ne_zero)
    (by
      intro c hc hcontra
      have h4 := congrArg (fun x : EuclideanSpace ℝ (Fin 2) => x 1) hcontra
      simp [EuclideanSpace.single_apply, PiLp.smul_apply] at h4)
    (by norm_num)⟩

/-- C10: every vector of the interpolation path lies in the linear span of
v1 and v2: each is a scalar rescaling of a linear combination of v1 and the
rescaled v2. -/
theorem C10_path_in_span {d : ℕ} (v1 v2 : EuclideanSpace ℝ (Fin d)) (n : ℕ) :
    ∀ v ∈ interpolate_hypersphere v1 v2 n,
      v ∈ Submodule.span ℝ ({v1, v2} : Set (EuclideanSpace ℝ (Fin d))) := by
  intro v hv
  rcases mem_interpolate_hypersphere hv with ⟨k, hk, rfl⟩
  unfold interpolationStep
  have hv1 : v1 ∈ Submodule.span ℝ ({v1, v2} : Set (EuclideanSpace ℝ (Fin d))) :=
    Submodule.subset_span (by simp)
  have hv2 : v2 ∈ Submodule.span ℝ ({v1, v2} : Set (EuclideanSpace ℝ (Fin d))) :=
    Submodule.subset_span (by simp)
  exact Submodule.smul_mem _ _ (Submodule.add_mem _ hv1
    (Submodule.smul_mem _ _ (Submodule.sub_mem _ (Submodule.smul_mem _ _ hv2) hv1)))

/-- C10 witness: the first path vector for v1 = (1,0), v2 = (0,1), n = 2 is
in the span of the two inputs. -/
theorem C10_path_in_span_witness :
    EuclideanSpace.single (0 : Fin 2) (1:ℝ) ∈
      Submodule.span ℝ ({EuclideanSpace.single (0 : Fin 2) (1:ℝ),
        EuclideanSpace.single (1 : Fin 2) (1:ℝ)} : Set (EuclideanSpace ℝ (Fin 2))) :=
  C10_path_in_span (EuclideanSpace.single (0 : Fin 2) (1:ℝ))
    (EuclideanSpace.single (1 : Fin 2) (1:ℝ)) 2
    (EuclideanSpace.single (0 : Fin 2) (1:ℝ))
    (by
      rw [interpolate_hypersphere_eq_map]
      have h0 : interpolationStep (EuclideanSpace.single (0 : Fin 2) (1:ℝ))
          (EuclideanSpace.single (1 : Fin 2) (1:ℝ)) 2 0 =
          EuclideanSpace.single (0 : Fin 2) (1:ℝ) :=
        interpolationStep_zero _ _ 2 (euclidean_single_ne_zero 0 one_ne_zero)
      have hm : interpolationStep (EuclideanSpace.single (0 : Fin 2) (1:ℝ))
          (EuclideanSpace.single (1 : Fin 2) (1:ℝ)) 2 0 ∈
          List.map (interpolationStep (EuclideanSpace.single (0 : Fin 2) (1:ℝ))
            (EuclideanSpace.single (1 : Fin 2) (1:ℝ)) 2) (List.range 2) :=
        List.mem_map_of_mem _ (by simp)
      rwa [h0] at hm)

theorem euclidean_smul_single {d : ℕ} (c : ℝ) (i : Fin d) (a : ℝ) :
    c • EuclideanSpace.single i a = EuclideanSpace.single i (c * a) := by
  ext j
  simp [EuclideanSpace.single_apply, PiLp.smul_apply, mul_ite]

/-- C4: for num_steps = 1 the denominator num_steps - 1 of the loop body is
zero, yet the function does not raise: it still returns a one-element vector
sequence (under the total-division semantics of the tensor framework, where
dividing by zero is not an exception), so the guard the spec requires is
absent from the code. -/
theorem C4_single_step_no_error :
    ((1 : ℕ) : ℝ) - 1 = 0 ∧
    interpolate_hypersphere (EuclideanSpace.single (0 : Fin 1) (1:ℝ))
        (EuclideanSpace.single (0 : Fin 1) (1:ℝ)) 1 =
      [EuclideanSpace.single (0 : Fin 1) (1:ℝ)] := by
  constructor
  · norm_num
  · rw [interpolate_hypersphere_eq_map]
    have hstep : interpolationStep (EuclideanSpace.single (0 : Fin 1) (1:ℝ))
        (EuclideanSpace.single (0 : Fin 1) (1:ℝ)) 1 0 =
        EuclideanSpace.single (0 : Fin 1) (1:ℝ) := by
      unfold interpolationStep
      simp
    rw [show List.range 1 = [0] from rfl, List.map_cons, List.map_nil, hstep]

theorem c7_norm_v1 : ‖EuclideanSpace.single (0 : Fin 2) (1:ℝ)‖ = 1 := by
  simp

theorem c7_norm_v2 : ‖EuclideanSpace.single (1 : Fin 2) (2:ℝ)‖ = 2 := by
  rw [EuclideanSpace.norm_single]
  norm_num

theorem c7_rescaled :
    (‖EuclideanSpace.single (0 : Fin 2) (1:ℝ)‖ /
        ‖EuclideanSpace.single (1 : Fin 2) (2:ℝ)‖) •
      EuclideanSpace.single (1 : Fin 2) (2:ℝ) =
      EuclideanSpace.single (1 : Fin 2) (1:ℝ) := by
  rw [c7_norm_v1, c7_norm_v2, euclidean_smul_single]
  norm_num

theorem c7_mid_ne_zero :
    (2:ℝ)⁻¹ • (EuclideanSpace.single (0 : Fin 2) (1:ℝ) +
      EuclideanSpace.single (1 : Fin 2) (1:ℝ)) ≠ 0 := by
  intro h
  have h4 := congrArg (fun x : EuclideanSpace ℝ (Fin 2) => x 0) h
  norm_num [PiLp.smul_apply, PiLp.add_apply, EuclideanSpace.single_apply] at h4

theorem c7_mid_step :
    interpolationStep (EuclideanSpace.single (0 : Fin 2) (1:ℝ))
        (EuclideanSpace.single (1 : Fin 2) (2:ℝ)) 3 1 =
      ‖(2:ℝ)⁻¹ • (EuclideanSpace.single (0 : Fin 2) (1:ℝ) +
          EuclideanSpace.single (1 : Fin 2) (1:ℝ))‖⁻¹ •
        ((2:ℝ)⁻¹ • (EuclideanSpace.single (0 : Fin 2) (1:ℝ) +
          EuclideanSpace.single (1 : Fin 2) (1:ℝ))) := by
  unfold interpolationStep
  rw [show ((1:ℕ):ℝ) = (1:ℝ) by norm_num, show ((3:ℕ):ℝ) = (3:ℝ) by norm_num,
    c7_rescaled, c7_norm_v1]
  have hmid : EuclideanSpace.single (0 : Fin 2) (1:ℝ) +
      ((1:ℝ) / ((3:ℝ) - 1)) • (EuclideanSpace.single (1 : Fin 2) (1:ℝ) -
        EuclideanSpace.single (0 : Fin 2) (1:ℝ)) =
      (2:ℝ)⁻¹ • (EuclideanSpace.single (0 : Fin 2) (1:ℝ) +
        EuclideanSpace.single (1 : Fin 2) (1:ℝ)) := by
    module
  rw [hmid, one_div]

/-- C7: for v1 = (1,0), v2 = (0,2) and n = 3 the path is: step 0 the vector
v1 = (1,0) of norm 1, step 2 the rescaled v2, namely (0,1), of norm 1, and
step 1 the normalization to norm 1 of the midpoint of (1,0) and (0,1). -/
theorem C7_example_path :
    interpolate_hypersphere (EuclideanSpace.single (0 : Fin 2) (1:ℝ))
        (EuclideanSpace.single (1 : Fin 2) (2:ℝ)) 3 =
      [EuclideanSpace.single (0 : Fin 2) (1:ℝ),
       ‖(2:ℝ)⁻¹ • (EuclideanSpace.single (0 : Fin 2) (1:ℝ) +
           EuclideanSpace.single (1 : Fin 2) (1:ℝ))‖⁻¹ •
         ((2:ℝ)⁻¹ • (EuclideanSpace.single (0 : Fin 2) (1:ℝ) +
           EuclideanSpace.single (1 : Fin 2) (1:ℝ))),
       EuclideanSpace.single (1 : Fin 2) (1:ℝ)] ∧
    EuclideanSpace.single (1 : Fin 2) (1:ℝ) =
      (‖EuclideanSpace.single (0 : Fin 2) (1:ℝ)‖ /
          ‖EuclideanSpace.single (1 : Fin 2) (2:ℝ)‖) •
        EuclideanSpace.single (1 : Fin 2) (2:ℝ) ∧
    ‖EuclideanSpace.single (0 : Fin 2) (1:ℝ)‖ = 1 ∧
    ‖EuclideanSpace.single (1 : Fin 2) (1:ℝ)‖ = 1 ∧
    ‖‖(2:ℝ)⁻¹ • (EuclideanSpace.single (0 : Fin 2) (1:ℝ) +
          EuclideanSpace.single (1 : Fin 2) (1:ℝ))‖⁻¹ •
        ((2:ℝ)⁻¹ • (EuclideanSpace.single (0 : Fin 2) (1:ℝ) +
          EuclideanSpace.single (1 : Fin 2) (1:ℝ)))‖ = 1 := by
  have h1 : EuclideanSpace.single (0 : Fin 2) (1:ℝ) ≠ 0 :=
    euclidean_single_ne_zero 0 one_ne_zero
  have h2 : EuclideanSpace.single (1 : Fin 2) (2:ℝ) ≠ 0 :=
    euclidean_single_ne_zero 1 two_ne_zero
  refine ⟨?_, c7_rescaled.symm, c7_norm_v1, by simp, ?_⟩
  · rw [interpolate_hypersphere_eq_map, show List.range 3 = [0, 1, 2] from rfl,
      List.map_cons, List.map_cons, List.map_cons, List.map_nil]
    have hlast := interpolationStep_last (EuclideanSpace.single (0 : Fin 2) (1:ℝ))
      (EuclideanSpace.single (1 : Fin 2) (2:ℝ)) (n := 3) h1 h2 (by norm_num)
    norm_num at hlast
    have hresc2 : ((1:ℝ)/2) • EuclideanSpace.single (1 : Fin 2) (2:ℝ) =
        EuclideanSpace.single (1 : Fin 2) (1:ℝ) := by
      rw [euclidean_smul_single]
      norm_num
    rw [interpolationStep_zero _ _ 3 h1, c7_mid_step, hlast, hresc2]
  · rw [norm_smul, Real.norm_eq_abs, abs_of_nonneg (inv_nonneg.2 (norm_nonneg _)),
      inv_mul_cancel₀ (norm_ne_zero_iff.2 c7_mid_ne_zero)]

/-- Embedding of an image: a height x width x channels tensor as nested lists
(rows, then pixels, then channel values). -/
abbrev Image := List (List (List ℝ))

/-- The channel slice `target_image[:,:,:3]` (line 174). -/
def sliceChannels3 (img : Image) : Image :=
  img.map fun row => row.map fun px => px.take 3

/-- Shape equality of two image tensors, the compatibility the framework
checks when it builds the elementwise difference of the two. -/
def sameShape3 (a b : Image) : Bool :=
  a.length == b.length &&
    (List.zip a b).all fun rp =>
      rp.1.length == rp.2.length &&
        (List.zip rp.1 rp.2).all fun pp => pp.1.length == pp.2.length

/-- The total number of scalar entries of an image tensor. -/
def numElements (img : Image) : ℕ :=
  (img.map fun row => (row.map List.length).sum).sum

/-- Sum over all positions of the absolute elementwise difference. -/
noncomputable def sumAbsDiff (a b : Image) : ℝ :=
  (List.zipWith (fun ra rb =>
    (List.zipWith (fun pa pb =>
      (List.zipWith (fun x y => |x - y|) pa pb).sum) ra rb).sum) a b).sum

/-- Model of `tf.losses.absolute_difference(labels, predictions)` (line 174)
with its default reduction SUM_BY_NONZERO_WEIGHTS and default scalar weight
1.0: after the shape check it returns the sum of the elementwise absolute
differences divided by the number of compared entries, that is their MEAN
(the `tf.reduce_sum` wrapped around it at line 173 is the identity on this
scalar).  A shape mismatch fails the run, embedded as `none`. -/
noncomputable def absolute_difference (labels predictions : Image) : Option ℝ :=
  if sameShape3 labels predictions then
    some (sumAbsDiff labels predictions / (numElements labels : ℝ))
  else none

/-- The loss of lines 173-181: the image-difference term against the first
three channels of the target, plus the regularizer
abs (norm vector - sqrt latent_dim). -/
noncomputable def computeLoss (image0 : Image) (target_image : Image)
    (vector : LatentVec) : Option ℝ :=
  (absolute_difference image0 (sliceChannels3 target_image)).map
    fun diff => diff + |‖vector‖ - Real.sqrt (latent_dim : ℝ)|

/-- The mutable state of the optimization loop of lines 186-192: the latent
variable and the two history lists. -/
structure InvState where
  vector : LatentVec
  images : List Image
  losses : List ℝ

/-- One iteration of the loop body (lines 188-192): evaluate the loss and the
image at the current vector, run the train op (the black-box optimizer
update), and append the fetched image and loss to the histories. -/
noncomputable def invStep (module : LatentVec → Image) (train : LatentVec → LatentVec)
    (target_image : Image) (s : InvState) : Option InvState :=
  (computeLoss (module s.vector) target_image s.vector).map fun loss_out =>
    ⟨train s.vector, s.images ++ [module s.vector], s.losses ++ [loss_out]⟩

/-- The loop `for _ in range(num_optimization_steps)` (line 188). -/
noncomputable def invRun (module : LatentVec → Image) (train : LatentVec → LatentVec)
    (target_image : Image) : ℕ → InvState → Option InvState
  | 0, s => some s
  | n + 1, s => (invStep module train target_image s).bind (invRun module train target_image n)

/-- The initial vector a run draws, together with the value it returns. -/
structure InvRunTrace where
  init : LatentVec
  result : Option (List Image × List ℝ)

/-- Embedding of `find_closest_latent_vector(num_optimization_steps)`
(lines 162-193): the initial vector is drawn from the seeded generator at the
hard-coded seed 5 (line 168), the Adam optimizer family is instantiated at
the hard-coded learning rate 0.3 (line 183), and the loop returns the two
histories. -/
noncomputable def find_closest_latent_vector_trace (rng : ℕ → LatentVec)
    (module : LatentVec → Image) (adam : ℝ → LatentVec → LatentVec)
    (target_image : Image) (num_optimization_steps : ℕ) : InvRunTrace :=
  let initial_vector := rng 5
  ⟨initial_vector,
    (invRun module (adam 0.3) target_image num_optimization_steps
      ⟨initial_vector, [], []⟩).map fun s => (s.images, s.losses)⟩

/-- The pair `(images, losses)` returned at line 193. -/
noncomputable def find_closest_latent_vector (rng : ℕ → LatentVec)
    (module : LatentVec → Image) (adam : ℝ → LatentVec → LatentVec)
    (target_image : Image) (num_optimization_steps : ℕ) :
    Option (List Image × List ℝ) :=
  (find_closest_latent_vector_trace rng module adam target_image
    num_optimization_steps).result

/-- Embedding of `interpolate_between_vectors()` (lines 110-130): v1 is drawn
at seed 3, v2 at seed 1, the path has 25 steps, and the module maps the path
to the image sequence handed to `animate`. -/
noncomputable def interpolate_between_vectors (rng : ℕ → LatentVec)
    (module : LatentVec → Image) : List Image :=
  let v1 := rng 3
  let v2 := rng 1
  let vectors := interpolate_hypersphere v1 v2 25
  vectors.map module

/-- Embedding of line 196:
`result = find_closest_latent_vector(num_optimization_steps=40)`. -/
noncomputable def script_result (rng : ℕ → LatentVec) (module : LatentVec → Image)
    (adam : ℝ → LatentVec → LatentVec) (target_image : Image) :
    Option (List Image × List ℝ) :=
  find_closest_latent_vector rng module adam target_image 40

theorem invStep_some {module : LatentVec → Image} {train : LatentVec → LatentVec}
    {target_image : Image} {s t : InvState}
    (h : invStep module train target_image s = some t) :
    ∃ l, computeLoss (module s.vector) target_image s.vector = some l ∧
      t = ⟨train s.vector, s.images ++ [module s.vector], s.losses ++ [l]⟩ := by
  unfold invStep at h
  cases hcl : computeLoss (module s.vector) target_image s.vector with
  | none => rw [hcl] at h; simp at h
  | some l =>
    rw [hcl] at h
    have h2 : some (⟨train s.vector, s.images ++ [module s.vector],
        s.losses ++ [l]⟩ : InvState) = some t := h
    exact ⟨l, rfl, (Option.some.inj h2).symm⟩

theorem invRun_lengths {module : LatentVec → Image} {train : LatentVec → LatentVec}
    {target_image : Image} :
    ∀ (n : ℕ) (s t : InvState), invRun module train target_image n s = some t →
      t.images.length = s.images.length + n ∧
      t.losses.length = s.losses.length + n := by
  intro n
  induction n with
  | zero =>
    intro s t h
    unfold invRun at h
    cases h
    omega
  | succ m ih =>
    intro s t h
    unfold invRun at h
    cases hstep : invStep module train target_image s with
    | none => rw [hstep] at h; simp at h
    | some s2 =>
      rw [hstep] at h
      simp only [Option.some_bind] at h
      obtain ⟨hi, hl⟩ := ih s2 t h
      obtain ⟨l, _, rfl⟩ := invStep_some hstep
      simp only [List.length_append, List.length_cons, List.length_nil] at hi hl
      omega

theorem invRun_succ_right (module : LatentVec → Image) (train : LatentVec → LatentVec)
    (target_image : Image) :
    ∀ (n : ℕ) (s : InvState), invRun module train target_image (n + 1) s =
      (invRun module train target_image n s).bind (invStep module train target_image) := by
  intro n
  induction n with
  | zero =>
    intro s
    show (invStep module train target_image s).bind (invRun module train target_image 0) =
      (some s).bind (invStep module train target_image)
    rw [Option.some_bind]
    cases hstep : invStep module train target_image s with
    | none => simp [hstep]
    | some s2 => simp [hstep, invRun]
  | succ m ih =>
    intro s
    show (invStep module train target_image s).bind
        (invRun module train target_image (m + 1)) =
      ((invStep module train target_image s).bind
        (invRun module train target_image m)).bind (invStep module train target_image)
    cases hstep : invStep module train target_image s with
    | none => simp
    | some s2 => simp [ih s2]

theorem invRun_some_of_le (module : LatentVec → Image) (train : LatentVec → LatentVec)
    (target_image : Image) :
    ∀ (n : ℕ) (s t : InvState), invRun module train target_image n s = some t →
      ∀ k, k ≤ n → ∃ u, invRun module train target_image k s = some u := by
  intro n
  induction n with
  | zero =>
    intro s t h k hk
    have : k = 0 := by omega
    exact ⟨t, this ▸ h⟩
  | succ m ih =>
    intro s t h k hk
    unfold invRun at h
    cases hstep : invStep module train target_image s with
    | none => rw [hstep] at h; simp at h
    | some s2 =>
      rw [hstep] at h
      simp only [Option.some_bind] at h
      cases k with
      | zero => exact ⟨s, rfl⟩
      | succ j =>
        obtain ⟨u, hu⟩ := ih s2 t h j (by omega)
        refine ⟨u, ?_⟩
        unfold invRun
        rw [hstep]
        simpa using hu

/-- A 1 x 1 RGB image of zeros, used to instantiate the pipelines. -/
def demoImage : Image := [[[0, 0, 0]]]

/-- A 1 x 1 RGBA image of zeros (four channels). -/
def demoTarget4 : Image := [[[0, 0, 0, 0]]]

/-- The loss value of one optimization step on the demo data. -/
noncomputable def demoLoss : ℝ :=
  sumAbsDiff demoImage (sliceChannels3 demoImage) / (numElements demoImage : ℝ) +
    |‖(0 : LatentVec)‖ - Real.sqrt (latent_dim : ℝ)|

/-- C5: a run of the optimizer with step count n that completes returns
exactly n images and n losses; the histories are built append-only, exactly
one (image, loss) pair per step, the partial state after k steps holding
exactly k entries; the loop runs all n steps with no early stop. -/
theorem C5_loss_trace_lengths (rng : ℕ → LatentVec) (module : LatentVec → Image)
    (adam : ℝ → LatentVec → LatentVec) (target_image : Image) (n : ℕ)
    (ims : List Image) (ls : List ℝ)
    (h : find_closest_latent_vector rng module adam target_image n = some (ims, ls)) :
    ims.length = n ∧ ls.length = n ∧
    ∀ k, k < n →
      ∃ t l, invRun module (adam 0.3) target_image k ⟨rng 5, [], []⟩ = some t ∧
        t.images.length = k ∧ t.losses.length = k ∧
        invRun module (adam 0.3) target_image (k + 1) ⟨rng 5, [], []⟩ =
          some ⟨adam 0.3 t.vector, t.images ++ [module t.vector], t.losses ++ [l]⟩ := by
  have h' : Option.map (fun s : InvState => (s.images, s.losses))
      (invRun module (adam 0.3) target_image n ⟨rng 5, [], []⟩) = some (ims, ls) := h
  cases hrun : invRun module (adam 0.3) target_image n ⟨rng 5, [], []⟩ with
  | none =>
    rw [hrun] at h'
    simp at h'
  | some sfin =>
    rw [hrun] at h'
    have h2 : some (sfin.images, sfin.losses) = some (ims, ls) := h'
    have h3 := Option.some.inj h2
    have hims : sfin.images = ims := congrArg Prod.fst h3
    have hls : sfin.losses = ls := congrArg Prod.snd h3
    obtain ⟨hl1, hl2⟩ := invRun_lengths n _ _ hrun
    refine ⟨by rw [← hims]; simpa using hl1, by rw [← hls]; simpa using hl2, ?_⟩
    intro k hk
    obtain ⟨u, hu⟩ := invRun_some_of_le module (adam 0.3) target_image n _ _ hrun k
      (by omega)
    obtain ⟨hu1, hu2⟩ := invRun_lengths k _ _ hu
    obtain ⟨w, hw⟩ := invRun_some_of_le module (adam 0.3) target_image n _ _ hrun (k + 1)
      (by omega)
    have hsucc := invRun_succ_right module (adam 0.3) target_image k ⟨rng 5, [], []⟩
    rw [hsucc, hu, Option.some_bind] at hw
    obtain ⟨l, hl, rfl⟩ := invStep_some hw
    refine ⟨u, l, hu, by simpa using hu1, by simpa using hu2, ?_⟩
    rw [hsucc, hu, Option.some_bind]
    unfold invStep
    rw [hl]
    rfl

/-- C5 witness: the theorem applied to a concrete two-step run on the demo
data. -/
theorem C5_loss_trace_lengths_witness :
    ([demoImage, demoImage] : List Image).length = 2 ∧
    ([demoLoss, demoLoss] : List ℝ).length = 2 ∧
    ∀ k, k < 2 →
      ∃ t l, invRun (fun _ => demoImage) (fun v => v) demoImage k ⟨0, [], []⟩ = some t ∧
        t.images.length = k ∧ t.losses.length = k ∧
        invRun (fun _ => demoImage) (fun v => v) demoImage (k + 1) ⟨0, [], []⟩ =
          some ⟨t.vector, t.images ++ [demoImage], t.losses ++ [l]⟩ :=
  C5_loss_trace_lengths (fun _ => 0) (fun _ => demoImage) (fun _ v => v) demoImage 2
    [demoImage, demoImage] [demoLoss, demoLoss] rfl

/-- C8: the initial latent vector of a run is the seeded generator evaluated
at the hard-coded seed 5 (line 168), whatever the module, optimizer, target
or step count; hence two runs sharing the same seeded generator draw the same
initial vector. -/
theorem C8_deterministic_initial_vector (rng : ℕ → LatentVec)
    (module₁ module₂ : LatentVec → Image) (adam₁ adam₂ : ℝ → LatentVec → LatentVec)
    (target₁ target₂ : Image) (n₁ n₂ : ℕ) :
    (find_closest_latent_vector_trace rng module₁ adam₁ target₁ n₁).init = rng 5 ∧
    (find_closest_latent_vector_trace rng module₁ adam₁ target₁ n₁).init =
      (find_closest_latent_vector_trace rng module₂ adam₂ target₂ n₂).init :=
  ⟨rfl, rfl⟩

/-- Shape of an image tensor: number of rows, row width, channel count. -/
def hasShape (img : Image) (h w c : ℕ) : Prop :=
  img.length = h ∧ ∀ row ∈ img, row.length = w ∧ ∀ px ∈ row, px.length = c

theorem sliceChannels3_shape {t : Image} {h w : ℕ}
    (ht : hasShape t h w 4) : hasShape (sliceChannels3 t) h w 3 := by
  obtain ⟨hlen, hrows⟩ := ht
  refine ⟨by simpa [sliceChannels3] using hlen, ?_⟩
  intro row hrow
  obtain ⟨row0, hrow0, rfl⟩ := List.mem_map.1 hrow
  obtain ⟨hrl, hpxs⟩ := hrows row0 hrow0
  refine ⟨by simpa using hrl, ?_⟩
  intro px hpx
  obtain ⟨px0, hpx0, rfl⟩ := List.mem_map.1 hpx
  have hp4 := hpxs px0 hpx0
  simp [List.length_take, hp4]

theorem sameShape3_of_hasShape {a b : Image} {h w c : ℕ}
    (ha : hasShape a h w c) (hb : hasShape b h w c) : sameShape3 a b = true := by
  unfold sameShape3
  rw [Bool.and_eq_true, beq_iff_eq, List.all_eq_true]
  refine ⟨ha.1.trans hb.1.symm, ?_⟩
  intro rp hrp
  obtain ⟨r1, r2⟩ := rp
  obtain ⟨hr1, hr2⟩ := List.of_mem_zip hrp
  obtain ⟨hr1w, hr1px⟩ := ha.2 r1 hr1
  obtain ⟨hr2w, hr2px⟩ := hb.2 r2 hr2
  rw [Bool.and_eq_true, beq_iff_eq, List.all_eq_true]
  refine ⟨hr1w.trans hr2w.symm, ?_⟩
  intro pp hpp
  obtain ⟨p1, p2⟩ := pp
  obtain ⟨hp1, hp2⟩ := List.of_mem_zip hpp
  rw [beq_iff_eq]
  exact (hr1px p1 hp1).trans (hr2px p2 hp2).symm

/-- C6: with a generated RGB image of shape (h, w, 3) and an RGBA target of
shape (h, w, 4), the loss uses only the first three channels of the target
and computes without a shape error. -/
theorem C6_rgba_target_no_shape_error {h w : ℕ} (img target_image : Image)
    (v : LatentVec) (himg : hasShape img h w 3) (htgt : hasShape target_image h w 4) :
    ∃ r, computeLoss img target_image v = some r := by
  have hs : sameShape3 img (sliceChannels3 target_image) = true :=
    sameShape3_of_hasShape himg (sliceChannels3_shape htgt)
  unfold computeLoss absolute_difference
  rw [if_pos hs]
  exact ⟨_, rfl⟩

/-- C6 witness: the theorem at a concrete 1 x 1 RGB image and 1 x 1 RGBA
target. -/
theorem C6_rgba_target_no_shape_error_witness :
    ∃ r, computeLoss demoImage demoTarget4 0 = some r :=
  C6_rgba_target_no_shape_error (h := 1) (w := 1) demoImage demoTarget4 0
    (by
      refine ⟨rfl, ?_⟩
      intro row hrow
      rw [show row ∈ demoImage ↔ row = [[(0:ℝ), 0, 0]] by simp [demoImage]] at hrow
      subst hrow
      refine ⟨rfl, ?_⟩
      intro px hpx
      rw [show px ∈ [[(0:ℝ), 0, 0]] ↔ px = [(0:ℝ), 0, 0] by simp] at hpx
      subst hpx
      rfl)
    (by
      refine ⟨rfl, ?_⟩
      intro row hrow
      rw [show row ∈ demoTarget4 ↔ row = [[(0:ℝ), 0, 0, 0]] by simp [demoTarget4]] at hrow
      subst hrow
      refine ⟨rfl, ?_⟩
      intro px hpx
      rw [show px ∈ [[(0:ℝ), 0, 0, 0]] ↔ px = [(0:ℝ), 0, 0, 0] by simp] at hpx
      subst hpx
      rfl)

/-- The pixel term as the claim words it: the SUM of the absolute pixel
differences against the first three channels of the target (not divided by
the number of entries), plus the regularizer.  Stated from the words of the
spec, for comparison with the code loss. -/
noncomputable def claimed_sum_loss (img target_image : Image) (v : LatentVec) : ℝ :=
  sumAbsDiff img (sliceChannels3 target_image) + |‖v‖ - Real.sqrt (latent_dim : ℝ)|

/-- C2 (amended): whenever the shapes are compatible, the loss equals the
MEAN of the absolute pixel differences (their sum divided by the number of
compared entries, the default reduction of the framework loss) against the
first three channels of the target, plus |norm vector - sqrt latent_dim|
with latent_dim = 512. -/
theorem C2_loss_formula (img target_image : Image) (v : LatentVec)
    (hs : sameShape3 img (sliceChannels3 target_image) = true) :
    latent_dim = 512 ∧
    computeLoss img target_image v =
      some (sumAbsDiff img (sliceChannels3 target_image) / (numElements img : ℝ) +
        |‖v‖ - Real.sqrt (latent_dim : ℝ)|) := by
  refine ⟨rfl, ?_⟩
  unfold computeLoss absolute_difference
  rw [if_pos hs]
  rfl

/-- C2 witness: the amended formula at the demo data. -/
theorem C2_loss_formula_witness :
    latent_dim = 512 ∧
    computeLoss demoImage demoImage 0 =
      some (sumAbsDiff demoImage (sliceChannels3 demoImage) /
          (numElements demoImage : ℝ) +
        |‖(0 : LatentVec)‖ - Real.sqrt (latent_dim : ℝ)|) :=
  C2_loss_formula demoImage demoImage 0 rfl

/-- C2 counterexample: for the 1 x 1 generated pixel (1,0,0) and a 1 x 1 RGBA
target of zeros, the code loss is 1/3 plus the regularizer (a mean over the
three channels), not 1 plus the regularizer (the claimed sum); the two
disagree. -/
theorem C2_counterexample :
    computeLoss [[[(1:ℝ), 0, 0]]] [[[(0:ℝ), 0, 0, 0]]] 0 ≠
      some (claimed_sum_loss [[[(1:ℝ), 0, 0]]] [[[(0:ℝ), 0, 0, 0]]] 0) := by
  intro h
  have hform : computeLoss [[[(1:ℝ), 0, 0]]] [[[(0:ℝ), 0, 0, 0]]] 0 =
      some (sumAbsDiff [[[(1:ℝ), 0, 0]]] (sliceChannels3 [[[(0:ℝ), 0, 0, 0]]]) /
          (numElements [[[(1:ℝ), 0, 0]]] : ℝ) +
        |‖(0 : LatentVec)‖ - Real.sqrt (latent_dim : ℝ)|) := rfl
  rw [hform] at h
  have h2 := Option.some.inj h
  unfold claimed_sum_loss at h2
  have hsum : sumAbsDiff [[[(1:ℝ), 0, 0]]] (sliceChannels3 [[[(0:ℝ), 0, 0, 0]]]) = 1 := by
    norm_num [sumAbsDiff, sliceChannels3]
  have hnum : ((numElements [[[(1:ℝ), 0, 0]]] : ℕ) : ℝ) = 3 := by
    norm_num [numElements]
  rw [hsum, hnum] at h2
  have h3 : (1:ℝ)/3 = 1 := add_right_cancel h2
  norm_num at h3

/-- C9: the interpolation pipeline always produces exactly 25 images, the
script invokes the optimizer with 40 steps (line 196), and the optimizer
family is consulted only at the hard-coded learning rate 0.3: two families
that agree at 0.3 give identical runs. -/
theorem C9_configuration_constants :
    (∀ (rng : ℕ → LatentVec) (module : LatentVec → Image),
      (interpolate_between_vectors rng module).length = 25) ∧
    (∀ (rng : ℕ → LatentVec) (module : LatentVec → Image)
        (adam : ℝ → LatentVec → LatentVec) (target_image : Image),
      script_result rng module adam target_image =
        find_closest_latent_vector rng module adam target_image 40) ∧
    (∀ (rng : ℕ → LatentVec) (module : LatentVec → Image)
        (adam₁ adam₂ : ℝ → LatentVec → LatentVec) (target_image : Image) (n : ℕ),
      adam₁ 0.3 = adam₂ 0.3 →
      find_closest_latent_vector rng module adam₁ target_image n =
        find_closest_latent_vector rng module adam₂ target_image n) := by
  refine ⟨?_, fun _ _ _ _ => rfl, ?_⟩
  · intro rng module
    unfold interpolate_between_vectors
    rw [List.length_map, interpolate_hypersphere_length]
  · intro rng module adam₁ adam₂ target_image n hadam
    unfold find_closest_latent_vector find_closest_latent_vector_trace
    rw [hadam]

/-- C9 witness: the three configuration facts at concrete pipeline inputs. -/
theorem C9_configuration_constants_witness :
    (interpolate_between_vectors (fun _ => 0) (fun _ => demoImage)).length = 25 ∧
    script_result (fun _ => 0) (fun _ => demoImage) (fun _ v => v) demoImage =
      find_closest_latent_vector (fun _ => 0) (fun _ => demoImage) (fun _ v => v)
        demoImage 40 ∧
    find_closest_latent_vector (fun _ => 0) (fun _ => demoImage) (fun _ v => v)
        demoImage 2 =
      find_closest_latent_vector (fun _ => 0) (fun _ => demoImage) (fun _ v => v)
        demoImage 2 :=
  ⟨C9_configuration_constants.1 _ _, C9_configuration_constants.2.1 _ _ _ _,
    C9_configuration_constants.2.2 _ _ _ _ _ 2 rfl⟩
